import Mathlib

/-!
Shallow embedding of `main.go`, a delimited-text sorter: the row data
model, the per-file parser (`readContent`), the sort engine
(`sortContent` with its two algorithms, `sort.Slice` and a binary search
tree built by `insert` and traversed by `rewriteTree`), and the channel
wiring of the directory-mode reader stage (`fileReadinStage` and
`readFiles`).  Theorems check the claims of the specification against
these definitions.
-/

/-- A parsed line, `[]string` in the source: an ordered sequence of
string fields. -/
abbrev Row : Type := List String

/-- Field access `row[field]` as written in the comparators of the
source.  An index beyond the row length is a fatal out-of-range panic in
Go; the theorems about comparisons therefore carry the hypothesis that
the field index is in range for every row, and this total function is
only relied on inside that hypothesis. -/
def getF (r : Row) (field : Nat) : String := r.getD field ""

/-- Lexicographic comparison of character lists, the order underlying
the Go string comparisons `<`, `>` and `<=` of the source.  Go compares
the UTF-8 bytes of the two strings; byte-wise comparison of UTF-8
agrees with code-point-wise comparison, which is what this function
computes. -/
def goLeB : List Char → List Char → Bool
  | [], _ => true
  | _ :: _, [] => false
  | a :: as, b :: bs => if a < b then true else if b < a then false else goLeB as bs

/-- The Go relation `s <= t` on strings. -/
def goStrLe (s t : String) : Prop := goLeB s.data t.data = true

instance goStrLe.instDecidable (s t : String) : Decidable (goStrLe s t) :=
  inferInstanceAs (Decidable (goLeB s.data t.data = true))

theorem goLeB_total (a b : List Char) : goLeB a b = true ∨ goLeB b a = true := by
  induction a generalizing b with
  | nil => left; rfl
  | cons x xs ih =>
    cases b with
    | nil => right; rfl
    | cons y ys =>
      by_cases hxy : x < y
      · left; simp [goLeB, hxy]
      · by_cases hyx : y < x
        · right; simp [goLeB, hyx]
        · rcases ih ys with h | h
          · left; simp [goLeB, hxy, hyx, h]
          · right; simp [goLeB, hxy, hyx, h]

theorem goLeB_trans {a b c : List Char} (hab : goLeB a b = true)
    (hbc : goLeB b c = true) : goLeB a c = true := by
  induction a generalizing b c with
  | nil => rfl
  | cons x xs ih =>
    match b, c with
    | [], _ => exact absurd hab (by simp [goLeB])
    | y :: ys, [] => exact absurd hbc (by simp [goLeB])
    | y :: ys, z :: zs =>
      simp only [goLeB] at hab hbc ⊢
      by_cases hxy : x < y
      · by_cases hyz : y < z
        · simp [lt_trans hxy hyz]
        · by_cases hzy : z < y
          · simp [hyz, hzy] at hbc
          · have hyz' : y = z := le_antisymm (le_of_not_lt hzy) (le_of_not_lt hyz)
            have hxz : x < z := hyz' ▸ hxy
            simp [hxz]
      · by_cases hyx : y < x
        · simp [hxy, hyx] at hab
        · have hxy' : x = y := le_antisymm (le_of_not_lt hyx) (le_of_not_lt hxy)
          rw [if_neg hxy, if_neg hyx] at hab
          by_cases hyz : y < z
          · have hxz : x < z := hxy' ▸ hyz
            simp [hxz]
          · by_cases hzy : z < y
            · simp [hyz, hzy] at hbc
            · rw [if_neg hyz, if_neg hzy] at hbc
              have hxz : ¬ x < z := fun h => hyz (hxy' ▸ h)
              have hzx : ¬ z < x := fun h => hzy (hxy' ▸ h)
              rw [if_neg hxz, if_neg hzx]
              exact ih hab hbc

theorem goStrLe_total (s t : String) : goStrLe s t ∨ goStrLe t s :=
  goLeB_total s.data t.data

theorem goStrLe_trans {s t u : String} (h1 : goStrLe s t) (h2 : goStrLe t u) :
    goStrLe s u :=
  goLeB_trans h1 h2

/-- The struct `Node` of the source, `data []string` with `left` and
`right` child pointers; the constructor `nil` is the null pointer, so
the `Tree` of the source is a `Node` as well (a `Tree` with null `root`
is `Node.nil`). -/
inductive Node where
  | nil : Node
  | node (left : Node) (data : Row) (right : Node) : Node

/-- The method `insert` on `*Node` of the source, together with the
null-root case of the method `insert` on `*Tree`: a row whose field
compares `<=` to the data of the node descends into the left subtree
(ties go left), otherwise into the right subtree, and replaces a nil
child by a fresh leaf. -/
def Node.insert : Node → Row → Nat → Node
  | .nil, data, _ => .node .nil data .nil
  | .node l d r, data, field =>
    if goStrLe (getF data field) (getF d field) then
      .node (Node.insert l data field) d r
    else
      .node l d (Node.insert r data field)

/-- The tree-building loop of `sortContent`, case 2:
`for i := h; i < len(buff); i++ { t.insert(buff[i], field) }`. -/
def insertAll (t : Node) (rows : List Row) (field : Nat) : Node :=
  rows.foldl (fun acc row => acc.insert row field) t

/-- Nullness of a node pointer, for the unguarded top-level traversal
call of `sortContent`, case 2. -/
def Node.isNil : Node → Bool
  | .nil => true
  | .node _ _ _ => false

/-- The method `rewriteTree` of the source: in-order traversal (left
subtree, node, right subtree), appending each visited row to the global
`sorted`.  Modelled as the list of appended rows; the recursive calls of
the source are guarded by nil checks, which the `nil` equation mirrors.
The unguarded top-level call `t.root.rewriteTree()` on a null root
panics in Go and is modelled separately in `sortContent`. -/
def rewriteTree : Node → List Row
  | .nil => []
  | .node l d r => rewriteTree l ++ d :: rewriteTree r

/-- The ordering relation established by the `sort.Slice` call of
`sortContent`, case 1: the closure compares the configured field of the
two rows with `<` (ascending) by default and with `>` (descending) when
the reverse flag is set, so a slice sorted by that closure has every
earlier element related to every later one by the corresponding
non-strict comparison. -/
def cmpRel (field : Nat) (reverse : Bool) (a b : Row) : Prop :=
  if reverse then goStrLe (getF b field) (getF a field)
  else goStrLe (getF a field) (getF b field)

instance cmpRel.instDecidableRel (field : Nat) (reverse : Bool) :
    DecidableRel (cmpRel field reverse) := fun a b =>
  match reverse with
  | true => inferInstanceAs (Decidable (goStrLe (getF b field) (getF a field)))
  | false => inferInstanceAs (Decidable (goStrLe (getF a field) (getF b field)))

instance cmpRel.instIsTotal (field : Nat) (reverse : Bool) :
    IsTotal Row (cmpRel field reverse) := by
  constructor
  intro a b
  cases reverse
  · exact goStrLe_total (getF a field) (getF b field)
  · exact goStrLe_total (getF b field) (getF a field)

instance cmpRel.instIsTrans (field : Nat) (reverse : Bool) :
    IsTrans Row (cmpRel field reverse) := by
  constructor
  intro a b c hab hbc
  cases reverse
  · exact goStrLe_trans hab hbc
  · exact goStrLe_trans hbc hab

/-- The function `sortContent` of the source.  The channel argument is
materialised: `buff` is the list of rows drained from the channel, in
arrival order.  `prev` is the value of the process-global `sorted`
before the call (the empty list at program start).  The result is the
value of `sorted` passed on to `output`, or `none` where the Go code
panics: case 1 slices `buff[h:]`, which is out of range when the header
offset `h` exceeds the buffer length, and case 2 unconditionally calls
`rewriteTree` on the tree root, which dereferences a null pointer when
nothing was inserted.  Case 1 sorts the sub-slice after the header
offset in place with `sort.Slice` from the standard library and assigns
the result to `sorted`; `sort.Slice` is modelled by insertion sort on
the sub-list, a sorted permutation as the `sort.Slice` contract states.
Case 2 inserts every row after the header offset into a binary search
tree and appends the in-order traversal to `sorted`.  Every other
selector value falls through the switch and leaves `sorted` untouched. -/
def sortContent (prev : List Row) (buff : List Row) (header : Bool)
    (field : Nat) (reverse : Bool) (sortAlgorithm : Nat) : Option (List Row) :=
  let h : Nat := if header then 1 else 0
  if sortAlgorithm = 1 then
    if h ≤ buff.length then
      some (buff.take h ++ List.insertionSort (cmpRel field reverse) (buff.drop h))
    else none
  else if sortAlgorithm = 2 then
    let t := insertAll Node.nil (buff.drop h) field
    if t.isNil then none else some (prev ++ rewriteTree t)
  else some prev

/-- The call `strings.Split(line, ",")` of `readContent`, on the
character list of the line: splitting on every comma, `n` commas giving
`n + 1` fields, the empty input giving one empty field. -/
def splitCommaChars : List Char → List String
  | [] => [""]
  | c :: cs =>
    if c = ',' then "" :: splitCommaChars cs
    else
      match splitCommaChars cs with
      | [] => [String.mk [c]]
      | f :: rest => String.mk (c :: f.data) :: rest

/-- The row parsed from one scanned line: `strings.Split(line, ",")`. -/
def splitComma (line : String) : Row := splitCommaChars line.data

/-- The scanner loop of `readContent`: `n` holds the field count of the
first processed line (0 before any line was processed), an empty line
stops parsing early, and a field-count mismatch with the first line is
`log.Fatal`, modelled as `none`. -/
def readContentLoop (n : Nat) : List String → Option (List Row)
  | [] => some []
  | line :: rest =>
    let row := splitComma line
    if line = "" then some []
    else
      let m := if n = 0 then row.length else n
      if m ≠ row.length then none
      else (readContentLoop m rest).map (fun content => row :: content)

/-- The function `readContent` of the source: parses the scanned lines
of one file into rows, `none` on the fatal column-count mismatch. -/
def readContent (ls : List String) : Option (List Row) :=
  readContentLoop 0 ls

/-- Channel wiring of the directory-mode reader stage.  A channel value
is `none` for the nil channel (the zero value of a channel variable) or
`some id` for a channel created by `make`; the ids of distinct `make`
calls are distinct.  The first statement of `readFiles(fnames, lines)`
reassigns its by-value parameter, `lines = make(chan []string)`, so the
goroutine it spawns sends every parsed row on the freshly made channel
and the channel value held by the caller is not involved at all. -/
def readFilesSendTarget (passedChan : Option Nat) (freshChan : Nat) : Option Nat :=
  some freshChan

/-- The slice `lines := make([]chan []string, n)` of `fileReadinStage`:
`n` channel variables holding their zero value, the nil channel.
`readFiles(fnames, lines[i])` receives the element by value and returns
nothing, so the slice still holds `n` nil channels afterwards. -/
def fileReadinStageLines (n : Nat) : List (Option Nat) :=
  List.replicate n none

/-- The channel the forwarding goroutine for index `i` ranges over in
`fileReadinStage`: the unchanged slice element `lines[i]`. -/
def forwarderSource (n i : Nat) : Option Nat :=
  (fileReadinStageLines n).getD i none

/-- The channel the worker goroutine spawned by the i-th `readFiles`
call sends on: a fresh channel, with id chosen above `n` so that it is
distinct from every id that could sit in the slice. -/
def workerTarget (n i : Nat) : Option Nat :=
  readFilesSendTarget (forwarderSource n i) (n + i)

/-- Everything a receiver draining a channel value can ever obtain,
given the rows sent per made channel: receiving on the nil channel
blocks forever and yields nothing; a made channel yields what was sent
on it. -/
def recvAll (sent : Nat → List Row) : Option Nat → List Row
  | none => []
  | some id => sent id

/-- The rows that the forwarding goroutines of `fileReadinStage` ever
place on the merged `allLines` channel: each forwarder drains
`lines[i]`. -/
def mergedRows (n : Nat) (sent : Nat → List Row) : List Row :=
  ((List.range n).map (fun i => recvAll sent (forwarderSource n i))).flatten

/-- The rows the worker goroutines send in total, each on its own fresh
channel. -/
def workerSentRows (n : Nat) (sent : Nat → List Row) : List Row :=
  ((List.range n).map (fun i => recvAll sent (workerTarget n i))).flatten

/-- Scenario D of the specification: three files of two rows each read
by a pool of three workers; `sent` maps the fresh channel of worker `i`
(ids 3, 4 and 5) to the rows of the file that worker consumed. -/
def scenarioSent : Nat → List Row
  | 3 => [["a", "1"], ["b", "2"]]
  | 4 => [["c", "3"], ["d", "4"]]
  | 5 => [["e", "5"], ["f", "6"]]
  | _ => []

theorem goLeB_refl (a : List Char) : goLeB a a = true := by
  induction a with
  | nil => rfl
  | cons x xs ih => simp [goLeB, lt_irrefl, ih]

theorem goStrLe_refl (s : String) : goStrLe s s :=
  goLeB_refl s.data

/-- Predicate holding on the data of every node of a tree. -/
def Node.ForallT (p : Row → Prop) : Node → Prop
  | .nil => True
  | .node l d r => Node.ForallT p l ∧ p d ∧ Node.ForallT p r

/-- The search-tree invariant maintained by `insert`: each row in a left
subtree compares `<=` on the configured field to the node data, each row
in a right subtree does not (it went right through the else branch). -/
inductive IsBST (field : Nat) : Node → Prop
  | nil : IsBST field .nil
  | node {l : Node} {d : Row} {r : Node} :
      IsBST field l → IsBST field r →
      Node.ForallT (fun x => goStrLe (getF x field) (getF d field)) l →
      Node.ForallT (fun x => ¬ goStrLe (getF x field) (getF d field)) r →
      IsBST field (.node l d r)

theorem forallT_insert {p : Row → Prop} {t : Node} {x : Row} {field : Nat}
    (ht : Node.ForallT p t) (hx : p x) : Node.ForallT p (t.insert x field) := by
  induction t with
  | nil => exact ⟨trivial, hx, trivial⟩
  | node l d r ihl ihr =>
    obtain ⟨hl, hd, hr⟩ := ht
    by_cases hc : goStrLe (getF x field) (getF d field)
    · simp only [Node.insert, if_pos hc]
      exact ⟨ihl hl, hd, hr⟩
    · simp only [Node.insert, if_neg hc]
      exact ⟨hl, hd, ihr hr⟩

theorem isBST_insert {t : Node} {x : Row} {field : Nat} (ht : IsBST field t) :
    IsBST field (t.insert x field) := by
  induction ht with
  | nil => exact .node .nil .nil trivial trivial
  | @node l d r hl hr hbl hbr ihl ihr =>
    by_cases hc : goStrLe (getF x field) (getF d field)
    · simp only [Node.insert, if_pos hc]
      exact .node ihl hr (forallT_insert hbl hc) hbr
    · simp only [Node.insert, if_neg hc]
      exact .node hl ihr hbl (forallT_insert hbr hc)

theorem forallT_iff_rewriteTree {p : Row → Prop} (t : Node) :
    Node.ForallT p t ↔ ∀ x ∈ rewriteTree t, p x := by
  induction t with
  | nil => simp [Node.ForallT, rewriteTree]
  | node l d r ihl ihr =>
    simp only [Node.ForallT, rewriteTree, List.mem_append, List.mem_cons]
    constructor
    · rintro ⟨hl, hd, hr⟩ x hx
      rcases hx with h | h | h
      · exact ihl.mp hl x h
      · exact h ▸ hd
      · exact ihr.mp hr x h
    · intro h
      exact ⟨ihl.mpr (fun x hx => h x (Or.inl hx)), h d (Or.inr (Or.inl rfl)),
        ihr.mpr (fun x hx => h x (Or.inr (Or.inr hx)))⟩

theorem rewriteTree_pairwise {field : Nat} {t : Node} (ht : IsBST field t) :
    List.Pairwise (fun a b : Row => goStrLe (getF a field) (getF b field))
      (rewriteTree t) := by
  induction ht with
  | nil => exact List.Pairwise.nil
  | @node l d r hl hr hbl hbr ihl ihr =>
    rw [rewriteTree, List.pairwise_append]
    refine ⟨ihl, ?_, ?_⟩
    · rw [List.pairwise_cons]
      refine ⟨fun b hb => ?_, ihr⟩
      have hnb : ¬ goStrLe (getF b field) (getF d field) :=
        (forallT_iff_rewriteTree r).mp hbr b hb
      rcases goStrLe_total (getF d field) (getF b field) with h | h
      · exact h
      · exact absurd h hnb
    · intro a ha b hb
      have had : goStrLe (getF a field) (getF d field) :=
        (forallT_iff_rewriteTree l).mp hbl a ha
      rcases List.mem_cons.mp hb with rfl | hb'
      · exact had
      · have hnb : ¬ goStrLe (getF b field) (getF d field) :=
          (forallT_iff_rewriteTree r).mp hbr b hb'
        rcases goStrLe_total (getF d field) (getF b field) with h | h
        · exact goStrLe_trans had h
        · exact absurd h hnb

theorem rewriteTree_insert_split {field : Nat} {t : Node} (x : Row)
    (ht : IsBST field t) :
    ∃ u v, rewriteTree t = u ++ v ∧
      rewriteTree (t.insert x field) = u ++ x :: v ∧
      ∀ e ∈ u, ¬ goStrLe (getF x field) (getF e field) := by
  induction ht with
  | nil => exact ⟨[], [], rfl, rfl, by simp⟩
  | @node l d r hl hr hbl hbr ihl ihr =>
    by_cases hc : goStrLe (getF x field) (getF d field)
    · obtain ⟨u, v, hsp, hsp', hu⟩ := ihl
      refine ⟨u, v ++ d :: rewriteTree r, ?_, ?_, hu⟩
      · rw [rewriteTree, hsp, List.append_assoc]
      · simp only [Node.insert, if_pos hc]
        rw [rewriteTree, hsp']
        simp [List.append_assoc]
    · obtain ⟨u, v, hsp, hsp', hu⟩ := ihr
      refine ⟨rewriteTree l ++ d :: u, v, ?_, ?_, ?_⟩
      · rw [rewriteTree, hsp]
        simp [List.append_assoc]
      · simp only [Node.insert, if_neg hc]
        rw [rewriteTree, hsp']
        simp [List.append_assoc]
      · intro e he
        rcases List.mem_append.mp he with he' | he'
        · have hed : goStrLe (getF e field) (getF d field) :=
            (forallT_iff_rewriteTree l).mp hbl e he'
          exact fun hxe => hc (goStrLe_trans hxe hed)
        · rcases List.mem_cons.mp he' with rfl | he''
          · exact hc
          · exact hu e he''

theorem rewriteTree_insert_perm (x : Row) {field : Nat} {t : Node}
    (ht : IsBST field t) :
    (rewriteTree (t.insert x field)).Perm (x :: rewriteTree t) := by
  obtain ⟨u, v, hsp, hsp', _⟩ := rewriteTree_insert_split x ht
  rw [hsp, hsp']
  exact List.perm_middle

theorem isBST_insertAll {rows : List Row} {t : Node} {field : Nat}
    (ht : IsBST field t) : IsBST field (insertAll t rows field) := by
  induction rows generalizing t with
  | nil => exact ht
  | cons x rest ih =>
    simp only [insertAll, List.foldl_cons]
    exact ih (isBST_insert ht)

theorem rewriteTree_insertAll_perm (rows : List Row) {field : Nat} {t : Node}
    (ht : IsBST field t) :
    (rewriteTree (insertAll t rows field)).Perm (rows ++ rewriteTree t) := by
  induction rows generalizing t with
  | nil => exact List.Perm.refl _
  | cons x rest ih =>
    simp only [insertAll, List.foldl_cons] at ih ⊢
    have h1 := ih (@isBST_insert t x field ht)
    have h2 : (rest ++ rewriteTree (t.insert x field)).Perm
        (rest ++ x :: rewriteTree t) :=
      List.Perm.append_left rest (rewriteTree_insert_perm x ht)
    have h3 : (rest ++ x :: rewriteTree t).Perm (x :: (rest ++ rewriteTree t)) :=
      List.perm_middle
    exact (h1.trans h2).trans h3

theorem filter_rewriteTree_insert {field : Nat} {k : String} {t : Node} (x : Row)
    (ht : IsBST field t) :
    (rewriteTree (t.insert x field)).filter (fun r => getF r field == k) =
      (if getF x field == k then [x] else []) ++
        (rewriteTree t).filter (fun r => getF r field == k) := by
  obtain ⟨u, v, hsp, hsp', hu⟩ := rewriteTree_insert_split x ht
  rw [hsp, hsp']
  by_cases hq : getF x field = k
  · have hu0 : u.filter (fun r => getF r field == k) = [] := by
      rw [List.filter_eq_nil_iff]
      intro e he
      simp only [beq_iff_eq]
      intro hek
      exact hu e he (by rw [hq, hek]; exact goStrLe_refl k)
    simp [List.filter_append, List.filter_cons, hq, hu0]
  · simp [List.filter_append, List.filter_cons, hq]

theorem filter_rewriteTree_insertAll {field : Nat} {k : String} (rows : List Row)
    {t : Node} (ht : IsBST field t) :
    (rewriteTree (insertAll t rows field)).filter (fun r => getF r field == k) =
      (rows.filter (fun r => getF r field == k)).reverse ++
        (rewriteTree t).filter (fun r => getF r field == k) := by
  induction rows generalizing t with
  | nil => simp [insertAll]
  | cons x rest ih =>
    simp only [insertAll, List.foldl_cons] at ih ⊢
    rw [ih (isBST_insert ht), filter_rewriteTree_insert x ht, List.filter_cons]
    by_cases hq : getF x field = k
    · simp [hq, List.append_assoc]
    · simp [hq]

theorem sortContent_alg1_eq {prev buff : List Row} {header : Bool} {field : Nat}
    {reverse : Bool} {out : List Row}
    (hout : sortContent prev buff header field reverse 1 = some out) :
    (if header then 1 else 0) ≤ buff.length ∧
      out = buff.take (if header then 1 else 0) ++
        List.insertionSort (cmpRel field reverse)
          (buff.drop (if header then 1 else 0)) := by
  by_cases hh : (if header then 1 else 0 : Nat) ≤ buff.length
  · refine ⟨hh, ?_⟩
    simp [sortContent, hh] at hout
    exact hout.symm
  · simp [sortContent, hh] at hout

theorem sortContent_alg2_eq {prev buff : List Row} {header : Bool} {field : Nat}
    {reverse : Bool} {out : List Row}
    (hout : sortContent prev buff header field reverse 2 = some out) :
    out = prev ++ rewriteTree (insertAll Node.nil
        (buff.drop (if header then 1 else 0)) field) := by
  by_cases ht : (insertAll Node.nil (buff.drop (if header then 1 else 0))
      field).isNil
  · simp [sortContent, ht] at hout
  · simp [sortContent, ht] at hout
    exact hout.symm

theorem splitCommaChars_ne_nil (cs : List Char) : splitCommaChars cs ≠ [] := by
  cases cs with
  | nil => simp [splitCommaChars]
  | cons c cs' =>
    by_cases hc : c = ','
    · simp [splitCommaChars, hc]
    · simp only [splitCommaChars, if_neg hc]
      cases splitCommaChars cs' <;> simp

theorem splitComma_length_pos (line : String) : 0 < (splitComma line).length := by
  have := splitCommaChars_ne_nil line.data
  exact List.length_pos.mpr this

theorem readContentLoop_mismatch {n : Nat} (hn : n ≠ 0) {ls : List String}
    {l : String} (hl : l ∈ ls.takeWhile (fun s => s ≠ ""))
    (hm : (splitComma l).length ≠ n) : readContentLoop n ls = none := by
  induction ls generalizing n with
  | nil => simp at hl
  | cons line rest ih =>
    by_cases hline : line = ""
    · rw [List.takeWhile_cons] at hl
      simp [hline] at hl
    · rw [List.takeWhile_cons, if_pos (by simpa using hline)] at hl
      simp only [readContentLoop, if_neg hline, if_neg hn]
      by_cases hrow : n ≠ (splitComma line).length
      · rw [if_pos hrow]
      · rw [if_neg hrow]
        push_neg at hrow
        have hlrest : l ∈ rest.takeWhile (fun s => s ≠ "") := by
          rcases List.mem_cons.mp hl with rfl | h
          · exact absurd hrow.symm hm
          · exact h
        rw [ih hn hlrest hm]
        rfl

theorem forwarderSource_eq_none (n i : Nat) : forwarderSource n i = none := by
  simp only [forwarderSource, fileReadinStageLines, List.getD_eq_getElem?_getD,
    List.getElem?_replicate]
  split <;> rfl

/-- C1: for every well-formed input collection, a produced sort-engine
output is a permutation of the input, except in tree-sort mode with
header exclusion enabled, where it is a permutation of the input minus
exactly the header row.  Length preservation follows since permutations
preserve length. -/
theorem sortContent_perm_of_some (buff : List Row) (header : Bool) (field : Nat)
    (reverse : Bool) (alg : Nat) (out : List Row)
    (hfield : ∀ r ∈ buff, field < r.length)
    (halg : alg = 1 ∨ alg = 2)
    (hout : sortContent [] buff header field reverse alg = some out) :
    out.Perm (if alg = 2 ∧ header = true then buff.drop 1 else buff) := by
  rcases halg with rfl | rfl
  · obtain ⟨hh, rfl⟩ := sortContent_alg1_eq hout
    have hperm : (buff.take (if header then 1 else 0) ++
        List.insertionSort (cmpRel field reverse)
          (buff.drop (if header then 1 else 0))).Perm
        (buff.take (if header then 1 else 0) ++
          buff.drop (if header then 1 else 0)) :=
      List.Perm.append_left _ (List.perm_insertionSort _ _)
    rw [List.take_append_drop] at hperm
    simpa using hperm
  · obtain rfl := sortContent_alg2_eq hout
    have h1 := rewriteTree_insertAll_perm
      (buff.drop (if header then 1 else 0)) (@IsBST.nil field)
    cases header <;> simpa [rewriteTree] using h1

theorem sortContent_perm_of_some_witness :
    sortContent [] [["h1"], ["b"], ["a"]] true 0 false 2 = some [["a"], ["b"]] ∧
    ([["a"], ["b"]] : List Row).Perm
      (if 2 = 2 ∧ (true : Bool) = true then
        ([["h1"], ["b"], ["a"]] : List Row).drop 1
      else [["h1"], ["b"], ["a"]]) :=
  ⟨by decide, sortContent_perm_of_some [["h1"], ["b"], ["a"]] true 0 false 2
    [["a"], ["b"]] (by decide) (Or.inr rfl) (by decide)⟩

/-- C2: in comparison-sort mode, every adjacent pair of the output after
the header offset is related by the field comparison of the configured
direction: ascending on the configured field without the reverse flag,
descending with it. -/
theorem sortContent_comparison_adjacent_sorted (buff : List Row) (header : Bool)
    (field : Nat) (reverse : Bool) (out : List Row)
    (hfield : ∀ r ∈ buff, field < r.length)
    (hout : sortContent [] buff header field reverse 1 = some out) :
    List.Chain' (cmpRel field reverse) (out.drop (if header then 1 else 0)) := by
  obtain ⟨hh, rfl⟩ := sortContent_alg1_eq hout
  rw [List.drop_left' (by rw [List.length_take]; exact min_eq_left hh)]
  exact List.Pairwise.chain' (List.sorted_insertionSort _ _)

theorem sortContent_comparison_adjacent_sorted_witness :
    sortContent [] [["b", "1"], ["a", "2"], ["c", "3"]] false 0 true 1 =
      some [["c", "3"], ["b", "1"], ["a", "2"]] ∧
    List.Chain' (cmpRel 0 true)
      (([["c", "3"], ["b", "1"], ["a", "2"]] : List Row).drop
        (if (false : Bool) = true then 1 else 0)) :=
  ⟨by decide, sortContent_comparison_adjacent_sorted
    [["b", "1"], ["a", "2"], ["c", "3"]] false 0 true
    [["c", "3"], ["b", "1"], ["a", "2"]] (by decide) (by decide)⟩

/-- C3: refuted on the code.  The first statement of `readFiles`
replaces its channel parameter by a fresh channel, so the worker
goroutines send their rows on channels that no forwarder ranges over,
while every forwarder ranges over the nil channel still held in the
`lines` slice.  In scenario D (three files of two rows each, pool size
three) the workers send all six rows, yet the merged stream receives
nothing, for any pool size and any assignment of rows; the wait-group
counter consequently never reaches zero and the merged stream is never
closed. -/
theorem fileReadinStage_loses_all_rows :
    (workerSentRows 3 scenarioSent).length = 6 ∧
    mergedRows 3 scenarioSent = [] ∧
    (∀ (n : Nat) (sent : Nat → List Row), mergedRows n sent = []) := by
  refine ⟨by decide, by decide, fun n sent => ?_⟩
  rw [mergedRows]
  have hmap : (List.range n).map (fun i => recvAll sent (forwarderSource n i)) =
      (List.range n).map (fun _ => ([] : List Row)) :=
    List.map_congr_left (fun i _ => by rw [forwarderSource_eq_none]; rfl)
  rw [hmap]
  simp

/-- C4: refuted on the code.  On an empty materialised buffer, tree-sort
mode calls `rewriteTree` on a nil root, a nil-pointer dereference
(modelled as `none`), with or without header exclusion; comparison-sort
mode with header exclusion slices `buff[1:]` out of range.  Only
comparison-sort mode without header exclusion leaves the output empty
without a fatal error as the claim demands for both modes. -/
theorem sortContent_empty_input_panics :
    sortContent [] [] false 0 false 2 = none ∧
    sortContent [] [] true 0 false 2 = none ∧
    sortContent [] [] true 0 false 1 = none ∧
    sortContent [] [] false 0 false 1 = some [] :=
  ⟨rfl, rfl, rfl, rfl⟩

/-- C5: any algorithm selector other than 1 and 2 falls through the
switch of `sortContent`: no sort happens and the prior state of the
global `sorted` is silently kept as the result handed to the emitter. -/
theorem sortContent_unknown_algorithm_keeps_prev (prev buff : List Row)
    (header : Bool) (field : Nat) (reverse : Bool) (alg : Nat)
    (h1 : alg ≠ 1) (h2 : alg ≠ 2) :
    sortContent prev buff header field reverse alg = some prev := by
  simp [sortContent, h1, h2]

theorem sortContent_unknown_algorithm_keeps_prev_witness :
    (3 ≠ 1) ∧ (3 ≠ 2) ∧
    sortContent [["z", "9"]] [["b", "1"], ["a", "2"]] false 0 false 3 =
      some [["z", "9"]] :=
  ⟨by decide, by decide, sortContent_unknown_algorithm_keeps_prev
    [["z", "9"]] [["b", "1"], ["a", "2"]] false 0 false 3
    (by decide) (by decide)⟩

/-- C6: in tree-sort mode the produced output is ascending on the
configured field whatever the reverse flag says: the reverse flag is
quantified over and never influences the conclusion. -/
theorem sortContent_tree_always_ascending (buff : List Row) (header : Bool)
    (field : Nat) (reverse : Bool) (out : List Row)
    (hfield : ∀ r ∈ buff, field < r.length)
    (hout : sortContent [] buff header field reverse 2 = some out) :
    List.Pairwise (fun a b : Row => goStrLe (getF a field) (getF b field)) out := by
  obtain rfl := sortContent_alg2_eq hout
  rw [List.nil_append]
  exact rewriteTree_pairwise (isBST_insertAll (@IsBST.nil field))

theorem sortContent_tree_always_ascending_witness :
    sortContent [] [["b"], ["a"], ["c"]] false 0 true 2 =
      some [["a"], ["b"], ["c"]] ∧
    List.Pairwise (fun a b : Row => goStrLe (getF a 0) (getF b 0))
      ([["a"], ["b"], ["c"]] : List Row) :=
  ⟨by decide, sortContent_tree_always_ascending [["b"], ["a"], ["c"]] false 0 true
    [["a"], ["b"], ["c"]] (by decide) (by decide)⟩

/-- C7, counterexample: the collection of rows a-1 and a-2 is already
sorted on field 0 ascending (the two keys are equal), yet tree-sort mode
returns it with the two rows swapped, because the second insert of the
equal key goes into the left subtree.  Sorting is therefore not
idempotent in either algorithm mode as the claim states. -/
theorem sortContent_idempotence_fails_tree :
    List.Pairwise (cmpRel 0 false) ([["a", "1"], ["a", "2"]] : List Row) ∧
    sortContent [] [["a", "1"], ["a", "2"]] false 0 false 2 =
      some [["a", "2"], ["a", "1"]] ∧
    ([["a", "2"], ["a", "1"]] : List Row) ≠ [["a", "1"], ["a", "2"]] :=
  ⟨by decide, by decide, by decide⟩

/-- C7, amended: sorting an already-sorted collection on the same field
and direction yields an unchanged sequence in comparison-sort mode; the
tree-sort mode does not have this property in general (see the
counterexample). -/
theorem sortContent_comparison_idempotent (buff : List Row) (header : Bool)
    (field : Nat) (reverse : Bool)
    (hne : header = true → buff ≠ [])
    (hsorted : List.Pairwise (cmpRel field reverse)
        (buff.drop (if header then 1 else 0))) :
    sortContent [] buff header field reverse 1 = some buff := by
  have hh : (if header then 1 else 0 : Nat) ≤ buff.length := by
    cases header with
    | false => simp
    | true =>
      simp only [if_pos rfl]
      exact Nat.succ_le_of_lt (Nat.pos_of_ne_zero
        (fun h => hne rfl (List.length_eq_zero.mp h)))
  have h1 : sortContent [] buff header field reverse 1 =
      some (buff.take (if header then 1 else 0) ++
        List.insertionSort (cmpRel field reverse)
          (buff.drop (if header then 1 else 0))) := by
    simp [sortContent, hh]
  rw [h1, List.Sorted.insertionSort_eq hsorted, List.take_append_drop]

theorem sortContent_comparison_idempotent_witness :
    List.Pairwise (cmpRel 0 false)
      (([["id", "val"], ["a", "1"], ["b", "2"]] : List Row).drop
        (if (true : Bool) = true then 1 else 0)) ∧
    sortContent [] [["id", "val"], ["a", "1"], ["b", "2"]] true 0 false 1 =
      some [["id", "val"], ["a", "1"], ["b", "2"]] :=
  ⟨by decide, sortContent_comparison_idempotent
    [["id", "val"], ["a", "1"], ["b", "2"]] true 0 false
    (fun _ => by decide) (by decide)⟩

/-- C8: in comparison-sort mode with header exclusion, the first row is
kept unchanged at position 0, the output is the same collection
reordered (a permutation written back in place), and the concrete
scenario C of the specification evaluates as stated. -/
theorem sortContent_header_retained :
    (∀ (hd : Row) (rest : List Row) (field : Nat) (reverse : Bool)
        (out : List Row),
        (∀ r ∈ hd :: rest, field < r.length) →
        sortContent [] (hd :: rest) true field reverse 1 = some out →
        out.head? = some hd ∧ out.Perm (hd :: rest)) ∧
    sortContent [] [["id", "val"], ["b", "1"], ["a", "2"]] true 0 false 1 =
      some [["id", "val"], ["a", "2"], ["b", "1"]] := by
  constructor
  · intro hd rest field reverse out hfield hout
    obtain ⟨hh, rfl⟩ := sortContent_alg1_eq hout
    simp only [if_pos rfl, List.take_succ_cons, List.take_zero,
      List.drop_succ_cons, List.drop_zero, List.cons_append, List.nil_append]
    exact ⟨rfl, (List.perm_insertionSort _ rest).cons hd⟩
  · decide

theorem sortContent_header_retained_witness :
    ([["id", "val"], ["a", "2"], ["b", "1"]] : List Row).head? =
      some ["id", "val"] ∧
    ([["id", "val"], ["a", "2"], ["b", "1"]] : List Row).Perm
      [["id", "val"], ["b", "1"], ["a", "2"]] :=
  sortContent_header_retained.1 ["id", "val"] [["b", "1"], ["a", "2"]] 0 false
    [["id", "val"], ["a", "2"], ["b", "1"]] (by decide) (by decide)

/-- C9: during parsing of a single file, a processed line (one reached
before the empty-line terminator) whose field count differs from that of
the first line makes `readContent` fail fatally, producing no output. -/
theorem readContent_mismatch_fatal (lines : List String) (l : String)
    (hl : l ∈ lines.takeWhile (fun s => s ≠ ""))
    (hm : (splitComma l).length ≠ (splitComma (lines.headD "")).length) :
    readContent lines = none := by
  cases lines with
  | nil => simp at hl
  | cons l0 rest =>
    by_cases h0 : l0 = ""
    · rw [List.takeWhile_cons] at hl
      simp [h0] at hl
    · have hn0 : (splitComma l0).length ≠ 0 :=
        Nat.pos_iff_ne_zero.mp (splitComma_length_pos l0)
      have hm' : (splitComma l).length ≠ (splitComma l0).length := by
        simpa using hm
      have hlrest : l ∈ rest.takeWhile (fun s => s ≠ "") := by
        rw [List.takeWhile_cons, if_pos (by simpa using h0)] at hl
        rcases List.mem_cons.mp hl with rfl | h
        · exact absurd rfl hm'
        · exact h
      have hrec : readContentLoop (splitComma l0).length rest = none :=
        readContentLoop_mismatch hn0 hlrest hm'
      simp [readContent, readContentLoop, h0, hrec]

theorem readContent_mismatch_fatal_witness :
    ("c" ∈ (["a,b", "c"] : List String).takeWhile (fun s => s ≠ "")) ∧
    readContent ["a,b", "c"] = none :=
  ⟨by decide, readContent_mismatch_fatal ["a,b", "c"] "c" (by decide) (by decide)⟩

/-- C10: in tree-sort mode, the rows carrying any fixed value of the
configured sort field come out in exactly the reverse of their buffer
order, because an insertion whose key ties with a node descends into the
left subtree and therefore precedes every earlier equal-key row in the
in-order traversal. -/
theorem sortContent_tree_equal_keys_reverse_order (buff : List Row)
    (header : Bool) (field : Nat) (reverse : Bool) (out : List Row) (k : String)
    (hfield : ∀ r ∈ buff, field < r.length)
    (hout : sortContent [] buff header field reverse 2 = some out) :
    out.filter (fun r => getF r field == k) =
      ((buff.drop (if header then 1 else 0)).filter
        (fun r => getF r field == k)).reverse := by
  obtain rfl := sortContent_alg2_eq hout
  rw [List.nil_append, filter_rewriteTree_insertAll _ (@IsBST.nil field)]
  simp [rewriteTree]

theorem sortContent_tree_equal_keys_reverse_order_witness :
    sortContent [] [["a", "1"], ["b", "9"], ["a", "2"], ["a", "3"]]
        false 0 false 2 =
      some [["a", "3"], ["a", "2"], ["a", "1"], ["b", "9"]] ∧
    ([["a", "3"], ["a", "2"], ["a", "1"], ["b", "9"]] : List Row).filter
        (fun r => getF r 0 == "a") =
      ((([["a", "1"], ["b", "9"], ["a", "2"], ["a", "3"]] : List Row).drop
          (if (false : Bool) = true then 1 else 0)).filter
        (fun r => getF r 0 == "a")).reverse :=
  ⟨by decide, sortContent_tree_equal_keys_reverse_order
    [["a", "1"], ["b", "9"], ["a", "2"], ["a", "3"]] false 0 false
    [["a", "3"], ["a", "2"], ["a", "1"], ["b", "9"]] "a"
    (by decide) (by decide)⟩
